import Mathlib

/-!
Verification development for the MMPB quiz application (`streamlit_app.py`).

The embedding models
* the path-resolution and row-validation logic of `resolve_path` /
  `load_questions` (paths are lists of characters; the POSIX filesystem is a
  predicate on normalized absolute paths, the working directory a list of
  path components),
* the label remapping applied at load time, and
* the quiz session controller of `main` (explicit session state, one step
  per submitted answer) together with the group-by aggregation shown at
  completion.

The model assumes a POSIX separator (`os.sep = '/'`), as on the deployment
platform of the app.
-/

set_option maxHeartbeats 1000000

namespace MMPB

/-- A Python string, modelled as its list of characters. -/
abbrev Str := List Char

/-! ### Path primitives (`resolve_path` and the `os.path` calls it feeds) -/

/-- Python `raw_path.replace("\\", "/")`: each backslash becomes a slash. -/
def replaceBS (s : Str) : Str := s.map fun c => if c = '\\' then '/' else c

/-- Python `.lstrip("/")`: drop all leading slashes. -/
def lstripSlash (s : Str) : Str := s.dropWhile fun c => c == '/'

/-- POSIX `os.path.join(a, b)` for two arguments. -/
def osJoin (a b : Str) : Str :=
  if b.head? = some '/' then b
  else if a = [] then b
  else if a.getLast? = some '/' then a ++ b
  else a ++ '/' :: b

/-- The source function `resolve_path(raw_path, data_dir)`:
normalize separators, strip the leading slash, join onto `data_dir`. -/
def resolve_path (raw_path : String) (data_dir : String) : Str :=
  osJoin data_dir.data (lstripSlash (replaceBS raw_path.data))

/-- Split a string on `'/'` (as `os.path.normpath` does to find components). -/
def splitSlash : Str → List Str
  | [] => [[]]
  | c :: rest =>
    let r := splitSlash rest
    if c = '/' then [] :: r
    else (c :: r.headD []) :: r.tail

/-- Normalization pass of `os.path.normpath` on an absolute component list:
drop empty and `.` components, let `..` pop the previous component
(at the root, `..` is dropped). -/
def normAbsAux : List Str → List Str → List Str
  | acc, [] => acc
  | acc, c :: rest =>
    if c = [] ∨ c = ['.'] then normAbsAux acc rest
    else if c = ['.', '.'] then normAbsAux acc.dropLast rest
    else normAbsAux (acc ++ [c]) rest

def normAbs (l : List Str) : List Str := normAbsAux [] l

/-- POSIX `os.path.abspath(p)` as a component list: join onto the current working
directory `cwd` (itself an absolute, normalized component list) unless `p`
is already absolute, then normalize. -/
def absComps (cwd : List Str) (p : Str) : List Str :=
  if p.head? = some '/' then normAbs (splitSlash p) else normAbs (cwd ++ splitSlash p)

/-- Render components to text with a slash before each component (the tail
of an absolute path's text). -/
def renderParts (comps : List Str) : Str :=
  comps.foldr (fun c acc => '/' :: (c ++ acc)) []

/-- The text of an absolute path with the given components (root is `"/"`). -/
def renderAbs : List Str → Str
  | [] => ['/']
  | c :: cs => '/' :: (c ++ renderParts cs)

/-- Well-formed working directory: no component contains a slash. -/
abbrev WFCwd (cwd : List Str) : Prop := ∀ c ∈ cwd, '/' ∉ c

/-- Executable `startswith` on character lists. -/
def isPrefixB : Str → Str → Bool
  | [], _ => true
  | _ :: _, [] => false
  | a :: p, b :: s => a == b && isPrefixB p s

/-- Executable substring test (Python `in`) on character lists. -/
def isInfixB (t : Str) : Str → Bool
  | [] => isPrefixB t []
  | c :: s => isPrefixB t (c :: s) || isInfixB t s

/-! ### Question records and the loader -/

/-- One CSV row after `fillna("")`: every relevant column as a string.
The CSV column `l2-category` is the field `l2_category`, and `attribute`
is the field `attrib` (both renamed only because of Lean identifier rules). -/
structure Row where
  image_path : String
  description_moderate : String
  preference : String
  question : String
  A : String
  B : String
  C : String
  D : String
  answer : String
  category : String
  attrib : String
  l2_category : String
  deriving DecidableEq

/-- A validated record: the original row plus the `_img` field attached by
`load_questions`. -/
structure Loaded where
  row : Row
  img : Str
  deriving DecidableEq

/-- The check `abs_img.startswith(abs_data + os.sep)` as a proposition. -/
def containCheck (cwd : List Str) (data_dir : String) (img : Str) : Prop :=
  (renderAbs (absComps cwd data_dir.data) ++ ['/']) <+: renderAbs (absComps cwd img)

/-- The filter applied to each row by `load_questions`:
the resolved image must satisfy the containment check, the
`os.sep + "test" + os.sep in abs_img` check, and `os.path.exists`.
`fs` is the filesystem: existence of a normalized absolute path. -/
def keep (cwd : List Str) (fs : List Str → Bool) (data_dir : String) (r : Row) : Bool :=
  let img := resolve_path r.image_path data_dir
  let absData := renderAbs (absComps cwd data_dir.data)
  let absImg := renderAbs (absComps cwd img)
  isPrefixB (absData ++ ['/']) absImg &&
    isInfixB ('/' :: ("test".data ++ ['/'])) absImg &&
    fs (absComps cwd img)

/-- The static table `mapping`, sending `overconcept` to `appropriateness` and
`inconsistency` to `coherency`. -/
def mapping : List (String × String) :=
  [("overconcept", "appropriateness"), ("inconsistency", "coherency")]

/-- Lookup in `mapping`, the value itself when it is not a key. -/
def remapField (s : String) : String :=
  match mapping.lookup s with
  | some v => v
  | none => s

/-- The display-label remapping loop: replace the `l2-category` and
`attribute` fields through `mapping` when they are keys of it. -/
def applyMapping (l : Loaded) : Loaded :=
  ⟨⟨l.row.image_path, l.row.description_moderate, l.row.preference, l.row.question,
    l.row.A, l.row.B, l.row.C, l.row.D, l.row.answer, l.row.category,
    remapField l.row.attrib, remapField l.row.l2_category⟩, l.img⟩

/-- The source function `load_questions`.  The result of `pd.read_csv`
(which raises on an unreadable or malformed file) is passed as an
`Except`: an error propagates, rows are filtered by `keep`, each kept row
gets its `_img` field and then the label remapping. -/
def load_questions (cwd : List Str) (fs : List Str → Bool)
    (csv : Except String (List Row)) (data_dir : String) :
    Except String (List Loaded) :=
  match csv with
  | Except.error e => Except.error e
  | Except.ok records =>
    Except.ok ((records.filter (keep cwd fs data_dir)).map fun r =>
      applyMapping ⟨r, resolve_path r.image_path data_dir⟩)

/-! ### Quiz session controller (`main`) -/

/-- One entry of `st.session_state.responses`. -/
structure Resp where
  category : String
  attrib : String
  l2 : String
  correct : Bool
  deriving DecidableEq

/-- The session state: `idx`, `score`, `responses`. -/
structure Sess where
  idx : Nat
  score : Nat
  responses : List Resp
  deriving DecidableEq

/-- The values installed when `"idx" not in st.session_state`. -/
def initSess : Sess := ⟨0, 0, []⟩

/-- The cell `q.get(k)` for the option columns `A`..`D`. -/
def optField (q : Row) (k : String) : String :=
  if k = "A" then q.A
  else if k = "B" then q.B
  else if k = "C" then q.C
  else if k = "D" then q.D
  else ""

/-- The list comprehension `opt_keys`: the keys among A, B, C, D whose cell
is truthy, a cell being truthy exactly when non-empty. -/
def opt_keys (q : Row) : List String :=
  ["A", "B", "C", "D"].filter fun k => optField q k != ""

/-- The dict `opts_dict`: letter to text for the present options, else Yes/No. -/
def opts_dict (q : Row) : List (String × String) :=
  if opt_keys q ≠ [] then (opt_keys q).map fun k => (k, optField q k)
  else [("Yes", "Yes"), ("No", "No")]

/-- The keys of `opts_dict` (the choices offered by the radio widget). -/
def keysOf (q : Row) : List String := (opts_dict q).map Prod.fst

/-- The display texts of `opts_dict`. -/
def textsOf (q : Row) : List String := (opts_dict q).map Prod.snd

/-- The value `selected_text = opts_dict[choice_key]`. -/
def selectedText (q : Row) (choice : String) : String :=
  ((opts_dict q).lookup choice).getD ""

/-- Correctness judgment on submission: compare letter keys when the
answer is a key of `opts_dict`, otherwise compare display texts. -/
def grade (q : Row) (choice : String) : Bool :=
  if q.answer ∈ keysOf q then choice == q.answer
  else selectedText q choice == q.answer

/-- One completed submission: append the response entry, bump the score on
a correct answer, advance `idx`. -/
def submit (q : Row) (choice : String) (s : Sess) : Sess :=
  ⟨s.idx + 1,
   if grade q choice then s.score + 1 else s.score,
   s.responses ++ [⟨q.category, q.attrib, q.l2_category, grade q choice⟩]⟩

/-- Session states reachable after `n` completed submissions: submissions
only happen while `idx < len(qs)`, on the question `qs[idx]`, and the radio
widget only offers the keys of its `opts_dict`. -/
inductive ReachN : List Row → Nat → Sess → Prop where
  | init (qs : List Row) : ReachN qs 0 initSess
  | step (qs : List Row) (n : Nat) (s : Sess) (choice : String)
      (h : s.idx < qs.length) (hc : choice ∈ keysOf (qs.get ⟨s.idx, h⟩))
      (hr : ReachN qs n s) :
      ReachN qs (n + 1) (submit (qs.get ⟨s.idx, h⟩) choice s)

/-- The session state with each key possibly absent. -/
structure SessDict where
  idx : Option Nat
  score : Option Nat
  responses : Option (List Resp)
  deriving DecidableEq

def toDict (s : Sess) : SessDict := ⟨some s.idx, some s.score, some s.responses⟩

/-- The restart button: `for k in ("idx","score","responses"): del st.session_state[k]`. -/
def delKeys (_ : SessDict) : SessDict := ⟨none, none, none⟩

/-- The initialization block on rerun: when `"idx"` is absent, set all
three keys to their initial values. -/
def ensureInit (d : SessDict) : SessDict :=
  if d.idx = none then ⟨some 0, some 0, some []⟩ else d

/-! ### Completion report (`df.groupby(label)["correct"].agg(sum, count)`) -/

/-- Group the responses by a label and report, per distinct label, the sum
of the boolean `correct` column (an integer) and the group size. -/
def groupAgg (key : Resp → String) (rs : List Resp) : List (String × Nat × Nat) :=
  ((rs.map key).dedup).map fun c =>
    (c, ((rs.filter fun r => key r == c).map fun r => if r.correct then 1 else 0).sum,
        (rs.filter fun r => key r == c).length)

def categoryReport (rs : List Resp) : List (String × Nat × Nat) :=
  groupAgg (fun r => r.category) rs

def attributeReport (rs : List Resp) : List (String × Nat × Nat) :=
  groupAgg (fun r => r.attrib) rs

def l2Report (rs : List Resp) : List (String × Nat × Nat) :=
  groupAgg (fun r => r.l2) rs

/-! ### Spec-side definitions (worded from the specification, for
refinement comparisons against the source-side definitions above) -/

/-- Modelled on the spec's wording for a valid record: the resolved image
reference is non-empty, exists on disk, lies strictly inside the base
directory, and its absolute path passes through a directory component
literally named `test`. -/
def specValidRecord (cwd : List Str) (fs : List Str → Bool)
    (data_dir : String) (r : Row) : Prop :=
  resolve_path r.image_path data_dir ≠ [] ∧
  fs (absComps cwd (resolve_path r.image_path data_dir)) = true ∧
  (∃ rest, rest ≠ [] ∧
    absComps cwd (resolve_path r.image_path data_dir) =
      absComps cwd data_dir.data ++ rest) ∧
  "test".data ∈ (absComps cwd (resolve_path r.image_path data_dir)).dropLast

/-- Modelled on the spec's wording for the offered options: exactly the
non-empty choice fields among A, B, C, D when at least one is non-empty,
otherwise the fixed binary Yes/No set. -/
def specOpts (q : Row) : List (String × String) :=
  let present :=
    (if q.A ≠ "" then [("A", q.A)] else []) ++
    (if q.B ≠ "" then [("B", q.B)] else []) ++
    (if q.C ≠ "" then [("C", q.C)] else []) ++
    (if q.D ≠ "" then [("D", q.D)] else [])
  if present = [] then [("Yes", "Yes"), ("No", "No")] else present

/-- Modelled on the spec's wording for grading: in the Yes/No case compare
the selected display text with the answer; otherwise compare letter keys
when the answer is an option key and display texts when it is not. -/
def specGrade (q : Row) (choice : String) : Bool :=
  let opts := specOpts q
  let selText := (opts.lookup choice).getD ""
  if q.A ≠ "" ∨ q.B ≠ "" ∨ q.C ≠ "" ∨ q.D ≠ "" then
    (if q.answer ∈ opts.map Prod.fst then choice == q.answer
     else selText == q.answer)
  else selText == q.answer

/-! ### Concrete fixtures (used by witness instantiations) -/

/-- A filesystem on which every path exists. -/
def fsAll : List Str → Bool := fun _ => true

/-- A Yes/No question (all option cells empty) whose answer is `Yes`. -/
def q0 : Row := ⟨"", "", "", "", "", "", "", "", "Yes", "colors", "attr0", "l20"⟩

/-- A lettered question with options A and B, answered by letter key. -/
def qOpt : Row := ⟨"", "", "", "", "optA", "optB", "", "", "A", "catX", "overconcept", "inconsistency"⟩

/-- A lettered question whose answer matches no key and no display text. -/
def qBad : Row := ⟨"", "", "", "", "optA", "optB", "", "", "zzz", "catX", "aX", "lX"⟩

/-- A working directory that itself passes through a `test` directory. -/
def cwd1 : List Str := ["srv".data, "test".data, "app".data]

/-- A row whose raw image path does not mention `test`. -/
def rNoTest : Row := ⟨"imgs/x.png", "", "", "", "", "", "", "", "Yes", "c0", "a0", "l0"⟩

/-- A validated record fixture. -/
def ld0 : Loaded := ⟨qOpt, "data/test/x.png".data⟩

/-- A response-list fixture with a repeated category label. -/
def rs0 : List Resp := [⟨"c1", "a1", "l1", true⟩, ⟨"c1", "a2", "l2", false⟩]

/-! ### Lemmas about the path model -/

lemma splitSlash_ne_nil (s : Str) : splitSlash s ≠ [] := by
  cases s with
  | nil => simp [splitSlash]
  | cons c rest => simp only [splitSlash]; split <;> simp

lemma splitSlash_cons_slash (rest : Str) :
    splitSlash ('/' :: rest) = [] :: splitSlash rest := by
  simp [splitSlash]

lemma splitSlash_cons_other (c : Char) (rest : Str) (hc : c ≠ '/') :
    splitSlash (c :: rest) =
      (c :: (splitSlash rest).headD []) :: (splitSlash rest).tail := by
  simp [splitSlash, hc]

lemma splitSlash_no_slash : ∀ (s : Str), ∀ x ∈ splitSlash s, '/' ∉ x := by
  intro s
  induction s with
  | nil =>
    intro x hx
    simp [splitSlash] at hx
    simp [hx]
  | cons c rest ih =>
    intro x hx
    obtain ⟨p, ps, hr⟩ := List.exists_cons_of_ne_nil (splitSlash_ne_nil rest)
    by_cases hc : c = '/'
    · subst hc
      rw [splitSlash_cons_slash] at hx
      rcases List.mem_cons.mp hx with h | h
      · simp [h]
      · exact ih x h
    · rw [splitSlash_cons_other c rest hc, hr] at hx
      simp only [List.headD_cons, List.tail_cons] at hx
      rcases List.mem_cons.mp hx with h | h
      · subst h
        intro hmem
        rcases List.mem_cons.mp hmem with h1 | h1
        · exact hc h1.symm
        · exact ih p (by rw [hr]; exact List.mem_cons_self p ps) h1
      · exact ih x (by rw [hr]; exact List.mem_cons_of_mem p h)

lemma mem_normAbsAux : ∀ (l acc : List Str), ∀ x ∈ normAbsAux acc l,
    x ∈ acc ∨ (x ∈ l ∧ x ≠ []) := by
  intro l
  induction l with
  | nil =>
    intro acc x hx
    simp only [normAbsAux] at hx
    exact Or.inl hx
  | cons c rest ih =>
    intro acc x hx
    simp only [normAbsAux] at hx
    by_cases h1 : c = [] ∨ c = ['.']
    · rw [if_pos h1] at hx
      rcases ih acc x hx with h | h
      · exact Or.inl h
      · exact Or.inr ⟨List.mem_cons_of_mem c h.1, h.2⟩
    · rw [if_neg h1] at hx
      by_cases h2 : c = ['.', '.']
      · rw [if_pos h2] at hx
        rcases ih _ x hx with h | h
        · exact Or.inl ((List.dropLast_sublist acc).subset h)
        · exact Or.inr ⟨List.mem_cons_of_mem c h.1, h.2⟩
      · rw [if_neg h2] at hx
        rcases ih _ x hx with h | h
        · rcases List.mem_append.mp h with h3 | h3
          · exact Or.inl h3
          · have hxc : x = c := by simpa using h3
            subst hxc
            refine Or.inr ⟨List.mem_cons_self _ _, fun hnil => h1 (Or.inl hnil)⟩
        · exact Or.inr ⟨List.mem_cons_of_mem c h.1, h.2⟩

lemma absComps_wf (cwd : List Str) (p : Str) (hcwd : WFCwd cwd) :
    ∀ x ∈ absComps cwd p, x ≠ [] ∧ '/' ∉ x := by
  intro x hx
  rw [absComps] at hx
  split at hx
  · rcases mem_normAbsAux _ _ x hx with h | h
    · simp at h
    · exact ⟨h.2, splitSlash_no_slash p x h.1⟩
  · rcases mem_normAbsAux _ _ x hx with h | h
    · simp at h
    · refine ⟨h.2, ?_⟩
      rcases List.mem_append.mp h.1 with h3 | h3
      · exact hcwd x h3
      · exact splitSlash_no_slash p x h3

lemma renderParts_cons (c : Str) (cs : List Str) :
    renderParts (c :: cs) = '/' :: (c ++ renderParts cs) := rfl

lemma renderParts_append (a b : List Str) :
    renderParts (a ++ b) = renderParts a ++ renderParts b := by
  induction a with
  | nil => rfl
  | cons c a' ih =>
    simp [renderParts_cons, ih, List.append_assoc]

lemma renderPartsSlashHead (l : List Str) (h : l ≠ []) :
    ∃ w, renderParts l = '/' :: w := by
  cases l with
  | nil => exact absurd rfl h
  | cons c cs => exact ⟨c ++ renderParts cs, rfl⟩

lemma renderAbs_eq_parts (l : List Str) (h : l ≠ []) :
    renderAbs l = renderParts l := by
  cases l with
  | nil => exact absurd rfl h
  | cons c cs => rfl

lemma slashCancel : ∀ (a b u v : Str), '/' ∉ a → '/' ∉ b →
    a ++ '/' :: u = b ++ '/' :: v → a = b ∧ u = v := by
  intro a
  induction a with
  | nil =>
    intro b u v _ hb h
    cases b with
    | nil => simpa using h
    | cons y b' =>
      simp only [List.nil_append, List.cons_append, List.cons.injEq] at h
      exfalso
      apply hb
      rw [h.1]
      exact List.mem_cons_self _ _
  | cons x a' ih =>
    intro b u v ha hb h
    cases b with
    | nil =>
      simp only [List.cons_append, List.nil_append, List.cons.injEq] at h
      exfalso
      apply ha
      rw [← h.1]
      exact List.mem_cons_self _ _
    | cons y b' =>
      simp only [List.cons_append, List.cons.injEq] at h
      obtain ⟨hxy, h'⟩ := h
      have hha : '/' ∉ a' := fun hm => ha (List.mem_cons_of_mem _ hm)
      have hhb : '/' ∉ b' := fun hm => hb (List.mem_cons_of_mem _ hm)
      obtain ⟨hab, huv⟩ := ih b' u v hha hhb h'
      exact ⟨by rw [hxy, hab], huv⟩

lemma isPrefixB_iff : ∀ (p s : Str), isPrefixB p s = true ↔ p <+: s := by
  intro p
  induction p with
  | nil =>
    intro s
    simp only [isPrefixB, true_iff]
    exact ⟨s, rfl⟩
  | cons a p' ih =>
    intro s
    cases s with
    | nil =>
      simp only [isPrefixB]
      constructor
      · intro h
        simp at h
      · intro h
        obtain ⟨t, ht⟩ := h
        simp at ht
    | cons b s' =>
      simp only [isPrefixB, Bool.and_eq_true, beq_iff_eq, ih s']
      constructor
      · rintro ⟨h1, h2⟩
        exact List.cons_prefix_cons.mpr ⟨h1, h2⟩
      · intro h
        exact List.cons_prefix_cons.mp h

lemma isInfixB_iff : ∀ (s t : Str), isInfixB t s = true ↔ t <:+: s := by
  intro s
  induction s with
  | nil =>
    intro t
    simp only [isInfixB, isPrefixB_iff]
    constructor
    · intro h
      exact h.isInfix
    · intro h
      obtain ⟨u, v, huv⟩ := h
      have ht : t = [] := by
        have hlen := congrArg List.length huv
        rw [List.length_append, List.length_append] at hlen
        simp only [List.length_nil] at hlen
        exact List.length_eq_zero.mp (by omega)
      rw [ht]
  | cons c s' ih =>
    intro t
    simp only [isInfixB, Bool.or_eq_true, isPrefixB_iff, ih]
    exact (List.infix_cons_iff).symm

lemma slashShift : ∀ (c w r : Str), '/' ∉ c → ('/' :: w <:+: c ++ r) → '/' :: w <:+: r := by
  intro c
  induction c with
  | nil =>
    intro w r _ h
    simpa using h
  | cons x c' ih =>
    intro w r hc h
    rw [List.cons_append] at h
    rcases List.infix_cons_iff.mp h with h1 | h1
    · exfalso
      obtain ⟨hx, _⟩ := List.cons_prefix_cons.mp h1
      apply hc
      rw [hx]
      exact List.mem_cons_self _ _
    · exact ih w r (fun hm => hc (List.mem_cons_of_mem _ hm)) h1

lemma prefixExtend : ∀ (d i : List Str),
    (∀ c ∈ d, c ≠ [] ∧ '/' ∉ c) → (∀ c ∈ i, c ≠ [] ∧ '/' ∉ c) → d ≠ [] →
    renderParts d ++ ['/'] <+: renderParts i →
    ∃ r, r ≠ [] ∧ i = d ++ r := by
  intro d
  induction d with
  | nil =>
    intro i _ _ hd
    exact absurd rfl hd
  | cons c ds ih =>
    intro i hd hi _ hpre
    cases i with
    | nil =>
      exfalso
      have hlen := hpre.length_le
      simp [renderParts_cons, renderParts] at hlen
    | cons c' is =>
      obtain ⟨t, ht⟩ := hpre
      rw [renderParts_cons, renderParts_cons] at ht
      simp only [List.cons_append, List.append_assoc, List.cons.injEq, List.singleton_append] at ht
      -- ht : c ++ (renderParts ds ++ '/' :: t) = c' ++ renderParts is
      have hc : '/' ∉ c := (hd c (List.mem_cons_self _ _)).2
      have hc' : '/' ∉ c' := (hi c' (List.mem_cons_self _ _)).2
      cases ds with
      | nil =>
        cases is with
        | nil =>
          exfalso
          apply hc'
          have hmem : '/' ∈ c' ++ renderParts [] := by
            rw [← ht.2]
            simp [renderParts]
          simpa [renderParts] using hmem
        | cons e es =>
          rw [renderParts_cons] at ht
          have hcc : c = c' ∧ t = e ++ renderParts es := by
            refine slashCancel c c' t (e ++ renderParts es) hc hc' ?_
            have := ht.2
            simpa [renderParts] using this
          exact ⟨e :: es, List.cons_ne_nil _ _, by rw [hcc.1, List.singleton_append]⟩
      | cons e0 ds' =>
        cases is with
        | nil =>
          exfalso
          apply hc'
          have hmem : '/' ∈ c' ++ renderParts [] := by
            rw [← ht.2]
            rw [renderParts_cons]
            simp
          simpa [renderParts] using hmem
        | cons e es =>
          rw [renderParts_cons, renderParts_cons] at ht
          have hsc := slashCancel c c' (e0 ++ renderParts ds' ++ '/' :: t)
            (e ++ renderParts es) hc hc' (by
              have := ht.2
              simp only [List.cons_append, List.append_assoc] at this ⊢
              exact this)
          obtain ⟨hcc, hrest⟩ := hsc
          have hih : renderParts (e0 :: ds') ++ ['/'] <+: renderParts (e :: es) := by
            refine ⟨t, ?_⟩
            rw [renderParts_cons, renderParts_cons]
            simp only [List.cons_append, List.append_assoc, List.singleton_append]
            rw [← hrest]
            simp [List.append_assoc]
          obtain ⟨r, hrne, hreq⟩ := ih (e :: es)
            (fun x hx => hd x (List.mem_cons_of_mem _ hx))
            (fun x hx => hi x (List.mem_cons_of_mem _ hx))
            (List.cons_ne_nil _ _) hih
          refine ⟨r, hrne, ?_⟩
          rw [hcc, List.cons_append, ← hreq]

lemma containExtend (d i : List Str)
    (hd : ∀ c ∈ d, c ≠ [] ∧ '/' ∉ c) (hi : ∀ c ∈ i, c ≠ [] ∧ '/' ∉ c)
    (h : renderAbs d ++ ['/'] <+: renderAbs i) :
    ∃ r, r ≠ [] ∧ i = d ++ r := by
  cases d with
  | nil =>
    exfalso
    cases i with
    | nil =>
      have hlen := h.length_le
      simp [renderAbs] at hlen
    | cons c' is =>
      obtain ⟨t, ht⟩ := h
      simp only [renderAbs, List.cons_append, List.nil_append, List.singleton_append,
        List.append_assoc, List.cons.injEq] at ht
      -- ht : '/' :: t = c' ++ renderParts is (after peeling the head slash)
      obtain ⟨y, c'', hcy⟩ := List.exists_cons_of_ne_nil (hi c' (List.mem_cons_self _ _)).1
      apply (hi c' (List.mem_cons_self _ _)).2
      rw [hcy] at ht
      simp only [List.cons_append, List.cons.injEq] at ht
      rw [hcy, ← ht.2.1]
      exact List.mem_cons_self _ _
  | cons c ds =>
    cases i with
    | nil =>
      exfalso
      have hlen := h.length_le
      simp [renderAbs] at hlen
    | cons c' is =>
      exact prefixExtend (c :: ds) (c' :: is) hd hi (List.cons_ne_nil _ _) h

lemma testMemAux : ∀ (comps : List Str), (∀ c ∈ comps, c ≠ [] ∧ '/' ∉ c) →
    ∀ (T : Str), '/' ∉ T →
    ('/' :: (T ++ ['/'])) <:+: renderParts comps → T ∈ comps.dropLast := by
  intro comps
  induction comps with
  | nil =>
    intro _ T _ h
    exfalso
    have hlen := h.length_le
    simp [renderParts] at hlen
  | cons c cs ih =>
    intro hwf T hTs h
    rw [renderParts_cons] at h
    have hc : '/' ∉ c := (hwf c (List.mem_cons_self _ _)).2
    rcases List.infix_cons_iff.mp h with h1 | h1
    · obtain ⟨_, h2⟩ := List.cons_prefix_cons.mp h1
      obtain ⟨t, ht⟩ := h2
      cases cs with
      | nil =>
        exfalso
        apply hc
        have hmem : '/' ∈ c ++ renderParts [] := by
          rw [← ht]
          simp
        simpa [renderParts] using hmem
      | cons e es =>
        rw [renderParts_cons] at ht
        have hsc := slashCancel T c t (e ++ renderParts es) hTs hc (by
          simpa [List.append_assoc] using ht)
        rw [hsc.1]
        simp [List.dropLast]
    · cases cs with
      | nil =>
        exfalso
        have h2 := slashShift c (T ++ ['/']) (renderParts []) hc h1
        have hlen := h2.length_le
        simp [renderParts] at hlen
      | cons e es =>
        have h2 := slashShift c (T ++ ['/']) (renderParts (e :: es)) hc h1
        have h3 := ih (fun x hx => hwf x (List.mem_cons_of_mem _ hx)) T hTs h2
        rw [List.dropLast_cons₂]
        exact List.mem_cons_of_mem _ h3

lemma testMemConv (comps : List Str) (T : Str) (h : T ∈ comps.dropLast) :
    ('/' :: (T ++ ['/'])) <:+: renderAbs comps := by
  obtain ⟨s, t, hst⟩ := List.append_of_mem h
  have hne : comps ≠ [] := by
    intro hcn
    rw [hcn] at h
    simp at h
  have hdecomp : comps = s ++ T :: (t ++ [comps.getLast hne]) := by
    conv_lhs => rw [← List.dropLast_append_getLast hne]
    rw [hst]
    simp
  obtain ⟨w, hw⟩ := renderPartsSlashHead (t ++ [comps.getLast hne]) (by simp)
  refine ⟨renderParts s, w, ?_⟩
  rw [renderAbs_eq_parts comps hne, hdecomp, renderParts_append, renderParts_cons, hw]
  simp [List.append_assoc]

lemma testMemIff (comps : List Str) (hwf : ∀ c ∈ comps, c ≠ [] ∧ '/' ∉ c)
    (T : Str) (hTs : '/' ∉ T) :
    ('/' :: (T ++ ['/'])) <:+: renderAbs comps ↔ T ∈ comps.dropLast := by
  constructor
  · intro h
    cases comps with
    | nil =>
      exfalso
      have hlen := h.length_le
      simp [renderAbs] at hlen
    | cons c cs =>
      exact testMemAux (c :: cs) hwf T hTs h
  · exact testMemConv comps T

lemma osJoin_nil (a b : Str) (h : osJoin a b = []) : a = [] ∧ b = [] := by
  rw [osJoin] at h
  split at h
  · next hb =>
    exfalso
    cases b with
    | nil => simp at hb
    | cons x s => simp at h
  · split at h
    · next ha => exact ⟨ha, h⟩
    · split at h
      · next ha _ =>
        exact absurd (List.append_eq_nil.mp h).1 ha
      · simp at h

/-! ### The validation filter against the spec's conditions -/

lemma keep_iff (cwd : List Str) (fs : List Str → Bool) (dd : String) (r : Row)
    (hcwd : WFCwd cwd) :
    keep cwd fs dd r = true ↔
      (containCheck cwd dd (resolve_path r.image_path dd) ∧
       "test".data ∈ (absComps cwd (resolve_path r.image_path dd)).dropLast ∧
       fs (absComps cwd (resolve_path r.image_path dd)) = true) := by
  have hwf := absComps_wf cwd (resolve_path r.image_path dd) hcwd
  simp only [keep, Bool.and_eq_true, isPrefixB_iff, isInfixB_iff]
  rw [testMemIff _ hwf "test".data (by decide)]
  rw [containCheck]
  tauto

lemma keep_spec (cwd : List Str) (fs : List Str → Bool) (dd : String) (r : Row)
    (hcwd : WFCwd cwd) (h : keep cwd fs dd r = true) :
    specValidRecord cwd fs dd r := by
  rw [keep_iff cwd fs dd r hcwd] at h
  obtain ⟨hpre, htest, hfs⟩ := h
  have hwfD := absComps_wf cwd dd.data hcwd
  have hwfI := absComps_wf cwd (resolve_path r.image_path dd) hcwd
  obtain ⟨rest, hrne, hreq⟩ := containExtend _ _ hwfD hwfI hpre
  refine ⟨?_, hfs, ⟨rest, hrne, hreq⟩, htest⟩
  intro hnil
  have hnil' := hnil
  rw [resolve_path] at hnil'
  obtain ⟨hdd, _⟩ := osJoin_nil _ _ hnil'
  rw [hnil, hdd] at hreq
  have hlen := congrArg List.length hreq
  rw [List.length_append] at hlen
  exact hrne (List.length_eq_zero.mp (by omega))

lemma load_ok (cwd : List Str) (fs : List Str → Bool) (dd : String) (rows : List Row) :
    load_questions cwd fs (Except.ok rows) dd =
      Except.ok ((rows.filter (keep cwd fs dd)).map fun r =>
        applyMapping ⟨r, resolve_path r.image_path dd⟩) := rfl

/-! ### Lemmas about the session controller -/

lemma opt_keys_nil_iff (q : Row) :
    opt_keys q = [] ↔ (q.A = "" ∧ q.B = "" ∧ q.C = "" ∧ q.D = "") := by
  rw [opt_keys, List.filter_eq_nil_iff]
  simp [optField]

lemma opts_eq_spec (q : Row) : opts_dict q = specOpts q := by
  by_cases hA : q.A = "" <;> by_cases hB : q.B = "" <;>
    by_cases hC : q.C = "" <;> by_cases hD : q.D = "" <;>
    simp [opts_dict, specOpts, opt_keys, optField, hA, hB, hC, hD]

lemma grade_eq_spec (q : Row) (choice : String) (hc : choice ∈ keysOf q) :
    grade q choice = specGrade q choice := by
  have hopts := opts_eq_spec q
  by_cases hall : opt_keys q = []
  · obtain ⟨hA, hB, hC, hD⟩ := (opt_keys_nil_iff q).mp hall
    have hdict : opts_dict q = [("Yes", "Yes"), ("No", "No")] := by
      rw [opts_dict]
      simp [hall]
    have hkeys : keysOf q = ["Yes", "No"] := by
      rw [keysOf, hdict]
      rfl
    have hck : choice = "Yes" ∨ choice = "No" := by
      rw [hkeys] at hc
      simpa using hc
    have hsel : selectedText q choice = choice := by
      rcases hck with h | h <;> subst h <;> rw [selectedText, hdict] <;> decide
    have hguard : ¬(q.A ≠ "" ∨ q.B ≠ "" ∨ q.C ≠ "" ∨ q.D ≠ "") := by
      simp [hA, hB, hC, hD]
    have hspecsel : ((specOpts q).lookup choice).getD "" = selectedText q choice := by
      rw [← hopts]
      rfl
    simp only [grade, specGrade]
    rw [if_neg hguard, hspecsel]
    by_cases hans : q.answer ∈ keysOf q
    · rw [if_pos hans, hsel]
    · rw [if_neg hans]
  · have hguard : q.A ≠ "" ∨ q.B ≠ "" ∨ q.C ≠ "" ∨ q.D ≠ "" := by
      by_contra hcon
      push_neg at hcon
      exact hall ((opt_keys_nil_iff q).mpr ⟨hcon.1, hcon.2.1, hcon.2.2.1, hcon.2.2.2⟩)
    have hspecsel : ((specOpts q).lookup choice).getD "" = selectedText q choice := by
      rw [← hopts]
      rfl
    have hspeckeys : (specOpts q).map Prod.fst = keysOf q := by
      rw [← hopts, keysOf]
    simp only [grade, specGrade]
    rw [if_pos hguard, hspecsel, hspeckeys]

lemma lookup_mem_texts : ∀ (l : List (String × String)) (k : String),
    k ∈ l.map Prod.fst → ∃ t, l.lookup k = some t ∧ t ∈ l.map Prod.snd := by
  intro l
  induction l with
  | nil =>
    intro k hk
    simp at hk
  | cons p ps ih =>
    intro k hk
    by_cases hkp : k = p.1
    · exact ⟨p.2, by simp [List.lookup, hkp], by simp⟩
    · have hk' : k ∈ ps.map Prod.fst := by
        rw [List.map_cons] at hk
        rcases List.mem_cons.mp hk with h | h
        · exact absurd h hkp
        · exact h
      obtain ⟨t, h1, h2⟩ := ih k hk'
      refine ⟨t, ?_, by simp [h2]⟩
      rw [List.lookup, beq_false_of_ne hkp, h1]

lemma sum_indicator (l : List Resp) :
    (l.map fun r => if r.correct then (1 : Nat) else 0).sum =
      (l.filter fun r => r.correct).length := by
  induction l with
  | nil => rfl
  | cons x xs ih => cases hx : x.correct <;> simp [hx, ih, Nat.add_comm]

lemma groupAgg_mem (key : Resp → String) (rs : List Resp) (c : String) (p : Nat × Nat)
    (h : (c, p) ∈ groupAgg key rs) :
    p.1 = (rs.filter fun r => key r == c && r.correct).length ∧
    p.2 = (rs.filter fun r => key r == c).length := by
  rw [groupAgg] at h
  obtain ⟨c', _, heq⟩ := List.mem_map.mp h
  obtain ⟨hcc, hp⟩ := Prod.mk.injEq .. ▸ heq
  rw [hcc] at hp
  rw [← hp]
  constructor
  · have hfst : (List.map (fun r => if r.correct then (1 : Nat) else 0)
        (rs.filter fun r => key r == c)).sum =
        (rs.filter fun r => key r == c && r.correct).length := by
      rw [sum_indicator, List.filter_filter]
      exact congrArg List.length (List.filter_congr fun a _ => Bool.and_comm _ _)
    exact hfst
  · rfl

lemma groupAgg_total (key : Resp → String) (rs : List Resp) :
    ((groupAgg key rs).map fun x => x.2.2).sum = rs.length := by
  rw [groupAgg, List.map_map]
  have hconv : ∀ c, (rs.filter fun r => key r == c).length = (rs.map key).count c := by
    intro c
    rw [List.count, List.countP_map, ← List.countP_eq_length_filter]
    rfl
  have hmap : ((rs.map key).dedup.map ((fun x : String × Nat × Nat => x.2.2) ∘ fun c =>
      (c, ((rs.filter fun r => key r == c).map fun r => if r.correct then 1 else 0).sum,
          (rs.filter fun r => key r == c).length))) =
      ((rs.map key).dedup.map fun c => (rs.map key).count c) := by
    apply List.map_congr_left
    intro c _
    exact hconv c
  rw [hmap, ← List.length_map rs key]
  exact List.sum_map_count_dedup_eq_length (rs.map key)

/-! ### Claim theorems -/

/-- C1: for every input CSV and base directory (and well-formed working
directory), every record in the output of `load_questions` carries a
resolved `_img` that is non-empty, exists on disk, lies strictly inside
the base directory, and passes through a directory component literally
named `test`; and the output originates from a subsequence of the input
rows all of which satisfy these conditions, so a row not satisfying them
is absent from the output. -/
theorem c1_loader_output_valid (cwd : List Str) (fs : List Str → Bool)
    (dd : String) (rows : List Row) (out : List Loaded)
    (hcwd : WFCwd cwd)
    (h : load_questions cwd fs (Except.ok rows) dd = Except.ok out) :
    (∀ l ∈ out, l.img ≠ [] ∧ fs (absComps cwd l.img) = true ∧
      (∃ rest, rest ≠ [] ∧ absComps cwd l.img = absComps cwd dd.data ++ rest) ∧
      "test".data ∈ (absComps cwd l.img).dropLast) ∧
    ∃ origins : List Row, origins.Sublist rows ∧
      (∀ r ∈ origins, specValidRecord cwd fs dd r) ∧
      out = origins.map fun r => applyMapping ⟨r, resolve_path r.image_path dd⟩ := by
  rw [load_ok] at h
  simp only [Except.ok.injEq] at h
  have hout := h.symm
  constructor
  · intro l hl
    rw [hout] at hl
    obtain ⟨r, hr, hrl⟩ := List.mem_map.mp hl
    have hk : keep cwd fs dd r = true := List.of_mem_filter hr
    obtain ⟨h1, h2, h3, h4⟩ := keep_spec cwd fs dd r hcwd hk
    have himg : l.img = resolve_path r.image_path dd := by
      rw [← hrl]
      rfl
    rw [himg]
    exact ⟨h1, h2, h3, h4⟩
  · refine ⟨rows.filter (keep cwd fs dd), List.filter_sublist rows, ?_, hout⟩
    intro r hr
    exact keep_spec cwd fs dd r hcwd (List.of_mem_filter hr)

/-- C2: after any `n` completed submissions, `responses` has length `n`,
`idx` equals `n`, `score` counts the `correct = true` entries among the
first `n` responses, and neither the response count nor `idx` exceeds the
number of questions. -/
theorem c2_session_invariants (qs : List Row) (n : Nat) (s : Sess)
    (h : ReachN qs n s) :
    s.responses.length = n ∧ s.idx = n ∧
    s.score = ((s.responses.take n).filter fun r => r.correct).length ∧
    s.responses.length ≤ qs.length ∧ s.idx ≤ qs.length := by
  induction h with
  | init => simp [initSess]
  | step n s choice hlt hck hr ih =>
    obtain ⟨h1, h2, h3, h4, h5⟩ := ih
    refine ⟨?_, ?_, ?_, ?_, ?_⟩
    · show (s.responses ++ [_]).length = n + 1
      simp [h1]
    · show s.idx + 1 = n + 1
      omega
    · have htake : s.responses.take n = s.responses := by
        rw [← h1]
        exact List.take_length _
      rw [htake] at h3
      show (if grade (qs.get ⟨s.idx, hlt⟩) choice then s.score + 1 else s.score) =
        (((s.responses ++
            [(⟨(qs.get ⟨s.idx, hlt⟩).category, (qs.get ⟨s.idx, hlt⟩).attrib,
              (qs.get ⟨s.idx, hlt⟩).l2_category,
              grade (qs.get ⟨s.idx, hlt⟩) choice⟩ : Resp)]).take (n + 1)).filter
          fun r => r.correct).length
      have hlen : (s.responses ++
          [(⟨(qs.get ⟨s.idx, hlt⟩).category, (qs.get ⟨s.idx, hlt⟩).attrib,
            (qs.get ⟨s.idx, hlt⟩).l2_category,
            grade (qs.get ⟨s.idx, hlt⟩) choice⟩ : Resp)]).length = n + 1 := by
        simp [h1]
      rw [← hlen, List.take_length, List.filter_append]
      cases hgr : grade (qs.get ⟨s.idx, hlt⟩) choice <;> simp [hgr, h3]
    · show (s.responses ++ [_]).length ≤ qs.length
      simp only [List.length_append, List.length_singleton, h1]
      omega
    · show s.idx + 1 ≤ qs.length
      omega

/-- C3: the offered options are exactly the non-empty choice fields among
A, B, C, D when any is non-empty and the fixed Yes/No pair otherwise, and
grading compares the selected letter key with the answer when the answer
is an option key and the selected display text with the answer otherwise
(including the Yes/No case), as the spec-side `specOpts` and `specGrade`
state it. -/
theorem c3_options_and_grading (q : Row) (choice : String)
    (hc : choice ∈ keysOf q) :
    opts_dict q = specOpts q ∧ grade q choice = specGrade q choice :=
  ⟨opts_eq_spec q, grade_eq_spec q choice hc⟩

/-- C4: in each of the three groupings the reported pair for a label is
(count of responses with that label and `correct = true`, count of
responses with that label), and per-label totals sum to the number of
responses. -/
theorem c4_grouped_aggregates (rs : List Resp) :
    (∀ c p, (c, p) ∈ categoryReport rs →
      p.1 = (rs.filter fun r => r.category == c && r.correct).length ∧
      p.2 = (rs.filter fun r => r.category == c).length) ∧
    (∀ c p, (c, p) ∈ attributeReport rs →
      p.1 = (rs.filter fun r => r.attrib == c && r.correct).length ∧
      p.2 = (rs.filter fun r => r.attrib == c).length) ∧
    (∀ c p, (c, p) ∈ l2Report rs →
      p.1 = (rs.filter fun r => r.l2 == c && r.correct).length ∧
      p.2 = (rs.filter fun r => r.l2 == c).length) ∧
    ((categoryReport rs).map fun x => x.2.2).sum = rs.length ∧
    ((attributeReport rs).map fun x => x.2.2).sum = rs.length ∧
    ((l2Report rs).map fun x => x.2.2).sum = rs.length := by
  refine ⟨?_, ?_, ?_, groupAgg_total _ rs, groupAgg_total _ rs, groupAgg_total _ rs⟩ <;>
    exact fun c p h => groupAgg_mem _ rs c p h

/-- C5: from any reachable session state, deleting the three session keys
and re-running the initialization yields exactly the fresh initial state
`idx = 0`, `score = 0`, `responses = []`. -/
theorem c5_restart_resets (qs : List Row) (n : Nat) (s : Sess)
    (_reach : ReachN qs n s) :
    ensureInit (delKeys (toDict s)) = toDict initSess ∧ initSess = ⟨0, 0, []⟩ :=
  ⟨rfl, rfl⟩

/-- C6: `load_questions` never fails on account of an individual row (an
ok read always yields an ok result, bad rows are only filtered out), and a
failing read propagates as the same error. -/
theorem c6_loader_error_semantics (cwd : List Str) (fs : List Str → Bool)
    (dd : String) :
    (∀ e, load_questions cwd fs (Except.error e) dd = Except.error e) ∧
    (∀ rows, ∃ out, load_questions cwd fs (Except.ok rows) dd = Except.ok out) :=
  ⟨fun _ => rfl, fun _ => ⟨_, rfl⟩⟩

/-- C7: the static mapping sends `overconcept` to `appropriateness` and
`inconsistency` to `coherency`, leaves every other value unchanged, and
the load-time remapping applies it to exactly the `l2-category` and
`attribute` fields, every other field (and the `_img` reference) being
untouched. -/
theorem c7_remap_exact :
    (∀ s, s ≠ "overconcept" → s ≠ "inconsistency" → remapField s = s) ∧
    remapField "overconcept" = "appropriateness" ∧
    remapField "inconsistency" = "coherency" ∧
    ∀ l : Loaded,
      (applyMapping l).row.l2_category = remapField l.row.l2_category ∧
      (applyMapping l).row.attrib = remapField l.row.attrib ∧
      (applyMapping l).img = l.img ∧
      (applyMapping l).row.image_path = l.row.image_path ∧
      (applyMapping l).row.description_moderate = l.row.description_moderate ∧
      (applyMapping l).row.preference = l.row.preference ∧
      (applyMapping l).row.question = l.row.question ∧
      (applyMapping l).row.A = l.row.A ∧
      (applyMapping l).row.B = l.row.B ∧
      (applyMapping l).row.C = l.row.C ∧
      (applyMapping l).row.D = l.row.D ∧
      (applyMapping l).row.answer = l.row.answer ∧
      (applyMapping l).row.category = l.row.category := by
  refine ⟨?_, by decide, by decide,
    fun l => ⟨rfl, rfl, rfl, rfl, rfl, rfl, rfl, rfl, rfl, rfl, rfl, rfl, rfl⟩⟩
  intro s h1 h2
  rw [remapField]
  have hb1 : (s == "overconcept") = false := beq_false_of_ne h1
  have hb2 : (s == "inconsistency") = false := beq_false_of_ne h2
  simp [mapping, List.lookup, hb1, hb2]

/-- C8: the loader's output is an order-preserving selection of the input
rows: there is a sublist of the input whose image-wise processing is
exactly the output. -/
theorem c8_output_subsequence (cwd : List Str) (fs : List Str → Bool)
    (dd : String) (rows : List Row) (out : List Loaded)
    (h : load_questions cwd fs (Except.ok rows) dd = Except.ok out) :
    ∃ origins : List Row, origins.Sublist rows ∧
      out = origins.map fun r => applyMapping ⟨r, resolve_path r.image_path dd⟩ := by
  rw [load_ok] at h
  simp only [Except.ok.injEq] at h
  exact ⟨rows.filter (keep cwd fs dd), List.filter_sublist rows, h.symm⟩

/-- C9: the `test` requirement is a condition on the full absolute
resolved path: a row passes the filter exactly when the containment and
existence checks hold and some directory component of the absolute path —
including components contributed by the working directory above the base
directory — equals `test`. -/
theorem c9_test_on_absolute (cwd : List Str) (fs : List Str → Bool)
    (dd : String) (r : Row) (hcwd : WFCwd cwd) :
    keep cwd fs dd r = true ↔
      (containCheck cwd dd (resolve_path r.image_path dd) ∧
       "test".data ∈ (absComps cwd (resolve_path r.image_path dd)).dropLast ∧
       fs (absComps cwd (resolve_path r.image_path dd)) = true) :=
  keep_iff cwd fs dd r hcwd

/-- C10: when the answer field matches neither an option key nor an option
display text, every selectable choice is graded incorrect: the appended
response entry has `correct = false` and the score is unchanged. -/
theorem c10_unmatched_incorrect (q : Row) (choice : String) (s : Sess)
    (hck : choice ∈ keysOf q) (hak : q.answer ∉ keysOf q)
    (hat : q.answer ∉ textsOf q) :
    grade q choice = false ∧
    submit q choice s =
      ⟨s.idx + 1, s.score,
       s.responses ++ [⟨q.category, q.attrib, q.l2_category, false⟩]⟩ := by
  have hg : grade q choice = false := by
    rw [grade, if_neg hak]
    obtain ⟨t, h1, h2⟩ := lookup_mem_texts (opts_dict q) choice hck
    rw [selectedText, h1]
    simp only [Option.getD_some]
    refine beq_false_of_ne ?_
    intro he
    exact hat (he ▸ h2)
  refine ⟨hg, ?_⟩
  rw [submit, hg]
  simp

/-! ### Witness instantiations -/

/-- Witness for C1 at a concrete working directory, filesystem and CSV. -/
theorem c1_loader_output_valid_witness :
    (∀ l ∈ [applyMapping ⟨rNoTest, resolve_path rNoTest.image_path "data"⟩],
      l.img ≠ [] ∧ fsAll (absComps cwd1 l.img) = true ∧
      (∃ rest, rest ≠ [] ∧ absComps cwd1 l.img = absComps cwd1 "data".data ++ rest) ∧
      "test".data ∈ (absComps cwd1 l.img).dropLast) ∧
    ∃ origins : List Row, origins.Sublist [rNoTest, q0] ∧
      (∀ r ∈ origins, specValidRecord cwd1 fsAll "data" r) ∧
      [applyMapping ⟨rNoTest, resolve_path rNoTest.image_path "data"⟩] =
        origins.map fun r => applyMapping ⟨r, resolve_path r.image_path "data"⟩ :=
  c1_loader_output_valid cwd1 fsAll "data" [rNoTest, q0]
    [applyMapping ⟨rNoTest, resolve_path rNoTest.image_path "data"⟩]
    (by decide) (by rfl)

/-- Witness for C2 after one concrete submission. -/
theorem c2_session_invariants_witness :
    (submit q0 "Yes" initSess).responses.length = 1 ∧
    (submit q0 "Yes" initSess).idx = 1 ∧
    (submit q0 "Yes" initSess).score =
      (((submit q0 "Yes" initSess).responses.take 1).filter fun r => r.correct).length ∧
    (submit q0 "Yes" initSess).responses.length ≤ [q0].length ∧
    (submit q0 "Yes" initSess).idx ≤ [q0].length :=
  c2_session_invariants [q0] 1 (submit q0 "Yes" initSess)
    (ReachN.step [q0] 0 initSess "Yes" (by decide) (by decide) (ReachN.init [q0]))

/-- Witness for C3 on a concrete Yes/No question. -/
theorem c3_options_and_grading_witness :
    opts_dict q0 = specOpts q0 ∧ grade q0 "Yes" = specGrade q0 "Yes" :=
  c3_options_and_grading q0 "Yes" (by decide)

/-- Witness for C4 on a concrete response list. -/
theorem c4_grouped_aggregates_witness :
    ((1, 2) : Nat × Nat).1 = (rs0.filter fun r => r.category == "c1" && r.correct).length ∧
    ((1, 2) : Nat × Nat).2 = (rs0.filter fun r => r.category == "c1").length :=
  (c4_grouped_aggregates rs0).1 "c1" (1, 2) (by decide)

/-- Witness for C5 after one concrete submission. -/
theorem c5_restart_resets_witness :
    ensureInit (delKeys (toDict (submit q0 "No" initSess))) = toDict initSess ∧
    initSess = ⟨0, 0, []⟩ :=
  c5_restart_resets [q0] 1 (submit q0 "No" initSess)
    (ReachN.step [q0] 0 initSess "No" (by decide) (by decide) (ReachN.init [q0]))

/-- Witness for C7: the mapping fixes a non-key and maps `overconcept`. -/
theorem c7_remap_exact_witness :
    remapField "colors" = "colors" ∧ remapField "overconcept" = "appropriateness" :=
  ⟨c7_remap_exact.1 "colors" (by decide) (by decide), c7_remap_exact.2.1⟩

/-- Witness for C8 on a concrete CSV with one kept and one dropped row. -/
theorem c8_output_subsequence_witness :
    ∃ origins : List Row, origins.Sublist [q0, rNoTest] ∧
      [applyMapping ⟨rNoTest, resolve_path rNoTest.image_path "data"⟩] =
        origins.map fun r => applyMapping ⟨r, resolve_path r.image_path "data"⟩ :=
  c8_output_subsequence cwd1 fsAll "data" [q0, rNoTest]
    [applyMapping ⟨rNoTest, resolve_path rNoTest.image_path "data"⟩] (by rfl)

/-- Witness for C9: a working directory contributing the `test` component. -/
theorem c9_test_on_absolute_witness :
    keep cwd1 fsAll "data" rNoTest = true ↔
      (containCheck cwd1 "data" (resolve_path rNoTest.image_path "data") ∧
       "test".data ∈ (absComps cwd1 (resolve_path rNoTest.image_path "data")).dropLast ∧
       fsAll (absComps cwd1 (resolve_path rNoTest.image_path "data")) = true) :=
  c9_test_on_absolute cwd1 fsAll "data" rNoTest (by decide)

/-- Witness for C10 on a question whose answer matches nothing offered. -/
theorem c10_unmatched_incorrect_witness :
    grade qBad "A" = false ∧
    submit qBad "A" initSess =
      ⟨initSess.idx + 1, initSess.score,
       initSess.responses ++ [⟨qBad.category, qBad.attrib, qBad.l2_category, false⟩]⟩ :=
  c10_unmatched_incorrect qBad "A" initSess (by decide) (by decide) (by decide)

end MMPB
